import Mathlib

/-!
Verification of the core logic of the `past_news` repository against its
natural-language specification.

The development shallowly embeds, in Lean:
  * `src/api/article_selector.py` (mention counting, relevance scoring,
    excerpt extraction, best-article selection),
  * `src/src/date_calculator.py` (weekday-preserving month offset and the
    random historical same-weekday date),
  * the two cache variants `src/api/news_cache.py` (4-hour TTL) and
    `src/src/news_cache.py` (calendar-day rollover).

Strings are modelled as `List Char` at the algorithmic level (Lean's
`String` is a wrapper around `List Char`); the embedding covers the ASCII
semantics of the Python regexes involved.
-/

/-! ### Character classes

Python's regex `\w` (the class deciding `\b` word boundaries) is
alphanumeric or underscore; the ASCII whitespace accepted by `\s` and by
`str.strip` is space, tab, newline, carriage return, vertical tab and
form feed. -/

def isWordChar (c : Char) : Bool := c.isAlphanum || c == '_'

def isPySpace (c : Char) : Bool :=
  c == ' ' || c == '\t' || c == '\n' || c == '\r' || c == '\x0b' || c == '\x0c'

/-! ### `count_trump_mentions` (src/api/article_selector.py, lines 11-23)

The Python code is `len(re.findall(r'\btrump\b', text, re.IGNORECASE))`.
`re.findall` scans left to right and yields non-overlapping matches; the
scanner `scanCountB` below reproduces that scan: at each position it tries
to match `\b trump \b` (a boundary check against the previous character,
five case-insensitive literal characters, and a boundary check against the
following character) and, on success, resumes after the match.  The class
`B` deciding boundaries is a parameter so that the specification-side
variant (plain alphanumeric, no underscore) can reuse the same matcher. -/

def boundOkB (B : Char → Bool) : Option Char → Bool
  | none => true
  | some c => !B c

/-- Does `\b trump \b` (case-insensitively) match at the head of the list,
given the character preceding the head (`none` at the start of the text)? -/
def headMatchB (B : Char → Bool) (prev : Option Char) : List Char → Bool
  | t :: r :: u :: m :: p :: rest =>
    boundOkB B prev && (t == 't' || t == 'T') && (r == 'r' || r == 'R') &&
      (u == 'u' || u == 'U') && (m == 'm' || m == 'M') &&
      (p == 'p' || p == 'P') && boundOkB B rest.head?
  | _ => false

/-- The `re.findall` scan: count non-overlapping matches left to right,
resuming after each match (the character preceding the resumption point is
the final matched character). -/
def scanCountB (B : Char → Bool) : Option Char → List Char → Nat
  | _, [] => 0
  | prev, t :: r :: u :: m :: p :: rest =>
    if headMatchB B prev (t :: r :: u :: m :: p :: rest) then
      1 + scanCountB B (some p) rest
    else
      scanCountB B (some t) (r :: u :: m :: p :: rest)
  | _prev, c :: cs => scanCountB B (some c) cs

/-- Embeds `count_trump_mentions(text)`: `re.findall(r'\btrump\b', text, re.I)`
match count; the `if not text: return 0` guard coincides with the scan of
the empty list. -/
def count_trump_mentions (text : String) : Nat :=
  scanCountB isWordChar none text.data

/-! Specification-side counters: the number of positions at which a
whole-word (with respect to a boundary class `B`) case-insensitive
occurrence of "trump" starts. -/

/-- Does a whole-word occurrence (boundary class `B`) start at index `j`? -/
def occAtB (B : Char → Bool) (prev : Option Char) (l : List Char) (j : Nat) : Bool :=
  headMatchB B (if j = 0 then prev else l[j-1]?) (l.drop j)

/-- The number of indices of `s` at which a whole-word occurrence starts. -/
def occCountWith (B : Char → Bool) (s : String) : Nat :=
  (List.range s.data.length).countP (fun j => occAtB B none s.data j)

/-- Position-indexed count relative to a preceding character. -/
def specCountB (B : Char → Bool) (prev : Option Char) (l : List Char) : Nat :=
  (List.range l.length).countP (fun j => occAtB B prev l j)

theorem occAtB_succ (B : Char → Bool) (prev : Option Char) (c : Char)
    (cs : List Char) (j : Nat) :
    occAtB B prev (c :: cs) (j + 1) = occAtB B (some c) cs j := by
  unfold occAtB
  rcases j with _ | j
  · simp
  · simp [List.getElem?_cons_succ]

theorem specCountB_cons (B : Char → Bool) (prev : Option Char) (c : Char)
    (cs : List Char) :
    specCountB B prev (c :: cs) =
      (if occAtB B prev (c :: cs) 0 then 1 else 0) + specCountB B (some c) cs := by
  unfold specCountB
  rw [show (c :: cs).length = cs.length + 1 from rfl, List.range_succ_eq_map]
  rw [List.countP_cons, List.countP_map]
  have hc : List.countP ((fun j => occAtB B prev (c :: cs) j) ∘ Nat.succ)
        (List.range cs.length)
      = List.countP (fun j => occAtB B (some c) cs j) (List.range cs.length) := by
    apply List.countP_congr
    intro j _
    simp only [Function.comp_apply, Nat.succ_eq_add_one, occAtB_succ]
  rw [hc]
  rcases h : occAtB B prev (c :: cs) 0 <;> simp [h, Nat.add_comm, specCountB]

theorem headMatchB_short (B : Char → Bool) (prev : Option Char)
    (l : List Char) (h : l.length < 5) : headMatchB B prev l = false := by
  match l with
  | [] => rfl
  | [_] => rfl
  | [_, _] => rfl
  | [_, _, _] => rfl
  | [_, _, _, _] => rfl
  | _ :: _ :: _ :: _ :: _ :: _ => simp at h; omega

theorem beq_false_of_or (c a b x : Char) (h : (c == a || c == b) = true)
    (hxa : a ≠ x) (hxb : b ≠ x) : (c == x) = false := by
  have h2 : (c == a) = true ∨ (c == b) = true := by
    rcases Bool.or_eq_true_iff.mp h with h' | h'
    · exact Or.inl h'
    · exact Or.inr h'
  rcases h2 with h' | h'
  · rw [eq_of_beq h']; exact beq_eq_false_iff_ne.mpr hxa
  · rw [eq_of_beq h']; exact beq_eq_false_iff_ne.mpr hxb

theorem headMatchB_false_of_head (B : Char → Bool) (prev : Option Char)
    (c : Char) (cs : List Char) (h1 : (c == 't') = false)
    (h2 : (c == 'T') = false) : headMatchB B prev (c :: cs) = false := by
  rcases cs with _ | ⟨a, _ | ⟨b, _ | ⟨d, _ | ⟨e, fs⟩⟩⟩⟩ <;>
    simp [headMatchB, h1, h2]

/-- Interior characters of a match are themselves never the start of a
match (the literal does not self-overlap), so the left-to-right
non-overlapping scan of `re.findall` counts exactly the set of all
positions at which the pattern matches. -/
theorem scanCountB_eq_aux (B : Char → Bool) :
    ∀ (n : Nat) (l : List Char), l.length ≤ n → ∀ (prev : Option Char),
      scanCountB B prev l = specCountB B prev l := by
  intro n
  induction n with
  | zero =>
    intro l hl prev
    rcases l with _ | ⟨c, cs⟩
    · rfl
    · simp at hl
  | succ n ih =>
    intro l hl prev
    rcases l with _ | ⟨t, _ | ⟨r, _ | ⟨u, _ | ⟨m, _ | ⟨p, rest⟩⟩⟩⟩⟩
    · rfl
    · rw [show scanCountB B prev [t] = scanCountB B (some t) [] from rfl,
        specCountB_cons]
      rw [show occAtB B prev [t] 0 = headMatchB B prev [t] from rfl]
      rw [headMatchB_short B prev [t] (by simp)]
      simp [ih [] (by simp) (some t)]
    · rw [show scanCountB B prev [t, r] = scanCountB B (some t) [r] from rfl,
        specCountB_cons]
      rw [show occAtB B prev [t, r] 0 = headMatchB B prev [t, r] from rfl]
      rw [headMatchB_short B prev [t, r] (by simp)]
      simp [ih [r] (by simp at hl ⊢; omega) (some t)]
    · rw [show scanCountB B prev [t, r, u] = scanCountB B (some t) [r, u] from rfl,
        specCountB_cons]
      rw [show occAtB B prev [t, r, u] 0 = headMatchB B prev [t, r, u] from rfl]
      rw [headMatchB_short B prev [t, r, u] (by simp)]
      simp [ih [r, u] (by simp at hl ⊢; omega) (some t)]
    · rw [show scanCountB B prev [t, r, u, m] = scanCountB B (some t) [r, u, m] from rfl,
        specCountB_cons]
      rw [show occAtB B prev [t, r, u, m] 0 = headMatchB B prev [t, r, u, m] from rfl]
      rw [headMatchB_short B prev [t, r, u, m] (by simp)]
      simp [ih [r, u, m] (by simp at hl ⊢; omega) (some t)]
    · have hlen : rest.length + 5 ≤ n + 1 := by simpa using hl
      rw [show scanCountB B prev (t :: r :: u :: m :: p :: rest)
          = if headMatchB B prev (t :: r :: u :: m :: p :: rest) then
              1 + scanCountB B (some p) rest
            else scanCountB B (some t) (r :: u :: m :: p :: rest) from rfl]
      by_cases h : headMatchB B prev (t :: r :: u :: m :: p :: rest) = true
      · rw [if_pos h]
        have h' := h
        simp only [headMatchB, Bool.and_eq_true] at h'
        obtain ⟨⟨⟨⟨⟨⟨_, ht⟩, hr⟩, hu⟩, hm⟩, hp⟩, _⟩ := h'
        rw [specCountB_cons,
          show occAtB B prev (t :: r :: u :: m :: p :: rest) 0
            = headMatchB B prev (t :: r :: u :: m :: p :: rest) from rfl,
          h]
        rw [specCountB_cons,
          show occAtB B (some t) (r :: u :: m :: p :: rest) 0
            = headMatchB B (some t) (r :: u :: m :: p :: rest) from rfl,
          headMatchB_false_of_head B (some t) r _
            (beq_false_of_or r 'r' 'R' 't' hr (by decide) (by decide))
            (beq_false_of_or r 'r' 'R' 'T' hr (by decide) (by decide))]
        rw [specCountB_cons,
          show occAtB B (some r) (u :: m :: p :: rest) 0
            = headMatchB B (some r) (u :: m :: p :: rest) from rfl,
          headMatchB_false_of_head B (some r) u _
            (beq_false_of_or u 'u' 'U' 't' hu (by decide) (by decide))
            (beq_false_of_or u 'u' 'U' 'T' hu (by decide) (by decide))]
        rw [specCountB_cons,
          show occAtB B (some u) (m :: p :: rest) 0
            = headMatchB B (some u) (m :: p :: rest) from rfl,
          headMatchB_false_of_head B (some u) m _
            (beq_false_of_or m 'm' 'M' 't' hm (by decide) (by decide))
            (beq_false_of_or m 'm' 'M' 'T' hm (by decide) (by decide))]
        rw [specCountB_cons,
          show occAtB B (some m) (p :: rest) 0
            = headMatchB B (some m) (p :: rest) from rfl,
          headMatchB_false_of_head B (some m) p _
            (beq_false_of_or p 'p' 'P' 't' hp (by decide) (by decide))
            (beq_false_of_or p 'p' 'P' 'T' hp (by decide) (by decide))]
        rw [ih rest (by omega) (some p)]
        simp
      · rw [if_neg h]
        rw [specCountB_cons,
          show occAtB B prev (t :: r :: u :: m :: p :: rest) 0
            = headMatchB B prev (t :: r :: u :: m :: p :: rest) from rfl]
        simp only [Bool.not_eq_true] at h
        rw [h, ih (r :: u :: m :: p :: rest) (by simp at hl ⊢; omega) (some t)]
        simp

theorem scanCountB_eq_specCountB (B : Char → Bool) (prev : Option Char)
    (l : List Char) : scanCountB B prev l = specCountB B prev l :=
  scanCountB_eq_aux B l.length l (Nat.le_refl _) prev

/-- C4 (counterexample): the claim's word boundary — "not adjacent to an
alphanumeric character" — disagrees with the code on texts where the
keyword is adjacent to an underscore: Python's `\b` treats `_` as a word
character, so `count_trump_mentions("x_Trump")` is `0`, while the number
of whole-word occurrences under the plain-alphanumeric boundary is `1`. -/
theorem claim_C4_counterexample :
    count_trump_mentions ("x_Trump") ≠ occCountWith Char.isAlphanum ("x_Trump") := by
  decide

/-- C4 (amended): for every text, `count_trump_mentions` returns the
number of case-insensitive occurrences of "trump" that are whole words
with respect to Python's `\w` class — not adjacent to a letter, digit or
underscore on either side; "Trumpet" contributes 0,
"TRUMP Trump trump" contributes 3, and the empty text yields 0. -/
theorem claim_C4 :
    (∀ s : String, count_trump_mentions s = occCountWith isWordChar s) ∧
      count_trump_mentions ("Trumpet") = 0 ∧
      count_trump_mentions ("TRUMP Trump trump") = 3 ∧
      count_trump_mentions ("") = 0 :=
  ⟨fun s => scanCountB_eq_specCountB isWordChar none s.data, by decide, by decide, rfl⟩

/-! ### Article records

A Guardian article is a JSON dictionary; the embedding keeps the fields
the selector reads.  `fields = none` models both an absent `fields` key
and the falsy empty dictionary (the code's `article.get('fields')`
truthiness test and its `article.get('fields', {})` default give those two
cases identical behaviour in every code path modelled here).  An
`Option String` field distinguishes an absent key (`none`) from a present
value, including a present empty string (`some ""`). -/

structure Fields where
  headline : Option String
  body : Option String
deriving DecidableEq

structure Article where
  webTitle : Option String
  fields : Option Fields
  webUrl : Option String
  webPublicationDate : Option String
deriving DecidableEq

/-- Embeds `calculate_relevance_score` (src/api/article_selector.py, lines 26-56):
`headline = article.get('webTitle', '')`, overridden by
`article.get('fields', {}).get('headline', headline)` when the `fields`
dictionary is truthy; 3 points per headline mention plus 1 per body
mention, the body defaulting to the empty string. -/
def calculate_relevance_score (article : Article) : Nat :=
  let headline0 := article.webTitle.getD ("")
  let headline :=
    match article.fields with
    | some f => f.headline.getD headline0
    | none => headline0
  let score := count_trump_mentions headline * 3
  let body := (article.fields.bind Fields.body).getD ("")
  score + count_trump_mentions body

/-- C5: the relevance score is 3 times the mention count of the headline
plus 1 times the mention count of the body, where the headline used for
scoring is the override `fields.headline` when present and otherwise the
title `webTitle` (never both), and an absent body counts as empty. -/
theorem claim_C5 :
    ∀ a : Article,
      calculate_relevance_score a =
        3 * count_trump_mentions
              ((a.fields.bind Fields.headline).getD (a.webTitle.getD (""))) +
          1 * count_trump_mentions ((a.fields.bind Fields.body).getD ("")) := by
  intro a
  unfold calculate_relevance_score
  rcases a with ⟨wt, fs, u, d⟩
  rcases fs with _ | ⟨⟨hd, bd⟩⟩
  · simp [Nat.mul_comm]
  · rcases hd with _ | h <;> simp [Option.bind, Nat.mul_comm]

/-! ### `extract_paragraphs` (src/api/article_selector.py, lines 59-92)

The Python pipeline is
  `text = re.sub(r'</p>', '\n\n', html_body)` — `replacePEnd`;
  `text = re.sub(r'<[^>]+>', '', text)` — `stripTags` (at a `<`, the
    greedy `[^>]+` cannot cross a `>`, so the match runs through the first
    `>` provided at least one character separates them; otherwise the
    engine moves on and the `<` survives);
  `re.split(r'\n\s*\n', text.strip())` — `splitBlank` (a match starts at a
    newline and, after the greedy `\s*` backtracks, ends at the last
    newline of the following whitespace run);
  trim each piece, drop empties, take `max_paragraphs`, join with a blank
  line.  The function is total — "never errors" holds by construction. -/

def replacePEnd : List Char → List Char
  | [] => []
  | '<' :: '/' :: 'p' :: '>' :: rest => '\n' :: '\n' :: replacePEnd rest
  | c :: rest => c :: replacePEnd rest

def stripTagsGo : Nat → List Char → List Char
  | _, [] => []
  | 0, l => l
  | fuel + 1, c :: rest =>
    if c == '<' then
      let body := rest.takeWhile (fun x => x != '>')
      if body.length = 0 then c :: stripTagsGo fuel rest
      else if body.length < rest.length then stripTagsGo fuel (rest.drop (body.length + 1))
      else c :: stripTagsGo fuel rest
    else c :: stripTagsGo fuel rest

def stripTags (l : List Char) : List Char := stripTagsGo l.length l

/-- Python `str.strip` for ASCII text: drop leading and trailing
whitespace. -/
def trimChars (l : List Char) : List Char :=
  ((l.dropWhile isPySpace).reverse.dropWhile isPySpace).reverse

/-- Index of the last newline of a list, if any. -/
def lastNL : List Char → Option Nat
  | [] => none
  | c :: rest =>
    match lastNL rest with
    | some i => some (i + 1)
    | none => if c == '\n' then some 0 else none

/-- After the leading `\n` of a `\n\s*\n` match, the greedy-then-backtrack
`\s*\n` consumes through the last newline of the whitespace run, if the
run contains one. -/
def blankMatch (l : List Char) : Option (List Char) :=
  match lastNL (l.takeWhile isPySpace) with
  | some i => some (l.drop (i + 1))
  | none => none

theorem blankMatch_le (l r : List Char) (h : blankMatch l = some r) :
    r.length ≤ l.length := by
  unfold blankMatch at h
  rcases hnl : lastNL (l.takeWhile isPySpace) with _ | i <;> rw [hnl] at h
  · exact absurd h (by simp)
  · have : r = l.drop (i + 1) := by injection h with h'; exact h'.symm
    rw [this, List.length_drop]
    omega

theorem blankMatch_drop (l r : List Char) (h : blankMatch l = some r) :
    ∃ k, r = l.drop k := by
  unfold blankMatch at h
  rcases hnl : lastNL (l.takeWhile isPySpace) with _ | i <;> rw [hnl] at h
  · exact absurd h (by simp)
  · exact ⟨i + 1, by injection h with h'; exact h'.symm⟩

/-- Embeds `re.split(r'\n\s*\n', ·)`: scan left to right; at each newline try the
blank-line match; on success close the current piece and continue after
the match. -/
def goSplitF : Nat → List Char → List Char → List (List Char)
  | _, [], acc => [acc.reverse]
  | 0, l, acc => [acc.reverse ++ l]
  | fuel + 1, c :: rest, acc =>
    if c == '\n' then
      match blankMatch rest with
      | some rest2 => acc.reverse :: goSplitF fuel rest2 []
      | none => goSplitF fuel rest (c :: acc)
    else goSplitF fuel rest (c :: acc)

def splitBlank (l : List Char) : List (List Char) := goSplitF l.length l []

/-- Embeds `extract_paragraphs(html_body, max_paragraphs)`.  `max_paragraphs` is
modelled as a natural number (every call site passes the default `3`). -/
def extract_paragraphs (htmlBody : String) (maxParagraphs : Nat) : String :=
  if htmlBody.data = [] then ""
  else
    let text1 := replacePEnd htmlBody.data
    let text2 := stripTags text1
    let paragraphs := splitBlank (trimChars text2)
    let kept := (paragraphs.filter (fun p => !(trimChars p).isEmpty)).map trimChars
    let selected := kept.take maxParagraphs
    String.mk (List.intercalate ['\n', '\n'] selected)

/-! Properties of the extraction pipeline needed by C7 and C8. -/

/-- Occurrence of `p` as a contiguous segment of `l`. -/
def SubSeg (p l : List Char) : Prop := ∃ a b, l = a ++ p ++ b

theorem SubSeg.trans' (p q l : List Char) (h1 : SubSeg p q) (h2 : SubSeg q l) :
    SubSeg p l := by
  obtain ⟨a, b, rfl⟩ := h1
  obtain ⟨c, d, rfl⟩ := h2
  exact ⟨c ++ a, b ++ d, by simp⟩

/-- The text still contains a match of `<[^>]+>`: a `<`, at least one
non-`>` character, then a `>`. -/
def HasTagOcc (l : List Char) : Prop :=
  ∃ a mid b, l = a ++ '<' :: (mid ++ '>' :: b) ∧ mid ≠ [] ∧ '>' ∉ mid

theorem hasTagOcc_of_subseg (p l : List Char) (hs : SubSeg p l)
    (h : HasTagOcc p) : HasTagOcc l := by
  obtain ⟨a, mid, b, rfl, hne, hnin⟩ := h
  obtain ⟨c, d, rfl⟩ := hs
  exact ⟨c ++ a, mid, b ++ d, by simp, hne, hnin⟩

theorem dropWhile_idem (p : Char → Bool) (l : List Char) :
    (l.dropWhile p).dropWhile p = l.dropWhile p := by
  induction l with
  | nil => rfl
  | cons a l ih =>
    rw [List.dropWhile_cons]
    by_cases h : p a = true
    · rw [if_pos h]; exact ih
    · rw [if_neg h, List.dropWhile_cons, if_neg h]

theorem length_dropWhile_le' (p : Char → Bool) (l : List Char) :
    (l.dropWhile p).length ≤ l.length := by
  induction l with
  | nil => simp
  | cons a l ih =>
    rw [List.dropWhile_cons]
    by_cases h : p a = true
    · rw [if_pos h]; simp; omega
    · rw [if_neg h]

theorem dropWhile_head_false (p : Char → Bool) (c : Char) (u : List Char)
    (hu : List.dropWhile p (c :: u) = c :: u) : p c = false := by
  by_cases h : p c = true
  · rw [List.dropWhile_cons, if_pos h] at hu
    have := length_dropWhile_le' p u
    have h2 : (List.dropWhile p u).length = (c :: u).length := by rw [hu]
    simp at h2
    omega
  · simpa using h

theorem trim_step (p : Char → Bool) (u : List Char) (hu : u.dropWhile p = u) :
    ((u.reverse.dropWhile p).reverse).dropWhile p = (u.reverse.dropWhile p).reverse := by
  rcases u with _ | ⟨c, u'⟩
  · rfl
  · have hpc : p c = false := dropWhile_head_false p c u' hu
    rw [List.reverse_cons, List.dropWhile_append]
    by_cases h2 : (u'.reverse.dropWhile p).isEmpty = true
    · rw [if_pos h2]
      simp [List.dropWhile_cons, hpc]
    · rw [if_neg h2]
      simp [List.dropWhile_cons, hpc]

theorem trimChars_idem (l : List Char) : trimChars (trimChars l) = trimChars l := by
  unfold trimChars
  have hu : (l.dropWhile isPySpace).dropWhile isPySpace = l.dropWhile isPySpace :=
    dropWhile_idem isPySpace l
  have h1 := trim_step isPySpace (l.dropWhile isPySpace) hu
  rw [h1, List.reverse_reverse, dropWhile_idem]

theorem trimChars_subseg (l : List Char) : SubSeg (trimChars l) l := by
  refine ⟨l.takeWhile isPySpace,
    ((l.dropWhile isPySpace).reverse.takeWhile isPySpace).reverse, ?_⟩
  conv_lhs => rw [← List.takeWhile_append_dropWhile isPySpace l]
  rw [List.append_assoc]
  congr 1
  unfold trimChars
  conv_lhs => rw [← List.reverse_reverse (List.dropWhile isPySpace l),
    ← List.takeWhile_append_dropWhile isPySpace (List.dropWhile isPySpace l).reverse]
  rw [List.reverse_append]

theorem goSplitF_subseg :
    ∀ (n : Nat) (l : List Char), l.length ≤ n → ∀ (acc q : List Char),
      q ∈ goSplitF n l acc → ∃ a b, acc.reverse ++ l = a ++ q ++ b := by
  intro n
  induction n with
  | zero =>
    intro l hl acc q hq
    rcases l with _ | ⟨c, rest⟩
    · have : q = acc.reverse := by simpa [goSplitF] using hq
      exact ⟨[], [], by simp [this]⟩
    · simp at hl
  | succ n ih =>
    intro l hl acc q hq
    rcases l with _ | ⟨c, rest⟩
    · have : q = acc.reverse := by simpa [goSplitF] using hq
      exact ⟨[], [], by simp [this]⟩
    · by_cases hc : (c == '\n') = true
      · rcases hbm2 : blankMatch rest with _ | rest2
        · rw [goSplitF, if_pos hc, hbm2] at hq
          obtain ⟨a, b, hab⟩ :=
            ih rest (by simp at hl; omega) (c :: acc) q hq
          refine ⟨a, b, ?_⟩
          rw [← hab, List.reverse_cons, List.append_assoc]
          rfl
        · rw [goSplitF, if_pos hc, hbm2] at hq
          rcases List.mem_cons.mp hq with hq1 | hq2
          · exact ⟨[], c :: rest, by simp [hq1]⟩
          · obtain ⟨k, hk⟩ := blankMatch_drop rest rest2 hbm2
            have hlen2 : rest2.length ≤ n := by
              have := blankMatch_le rest rest2 hbm2
              simp at hl
              omega
            obtain ⟨a, b, hab⟩ := ih rest2 hlen2 [] q hq2
            simp only [List.reverse_nil, List.nil_append] at hab
            refine ⟨acc.reverse ++ c :: rest.take k ++ a, b, ?_⟩
            have : rest = rest.take k ++ rest2 := by
              rw [hk, List.take_append_drop]
            conv_lhs => rw [this]
            rw [hab]
            simp
      · rw [goSplitF, if_neg hc] at hq
        obtain ⟨a, b, hab⟩ := ih rest (by simp at hl; omega) (c :: acc) q hq
        refine ⟨a, b, ?_⟩
        rw [← hab, List.reverse_cons, List.append_assoc]
        rfl

theorem splitBlank_subseg (l q : List Char) (hq : q ∈ splitBlank l) :
    SubSeg q l := by
  obtain ⟨a, b, hab⟩ := goSplitF_subseg l.length l (Nat.le_refl _) [] q hq
  exact ⟨a, b, by simpa using hab⟩

theorem mem_stripTagsGo :
    ∀ (n : Nat) (l : List Char), l.length ≤ n → ∀ x, x ∈ stripTagsGo n l → x ∈ l := by
  intro n
  induction n with
  | zero =>
    intro l hl x hx
    rcases l with _ | ⟨c, rest⟩
    · simpa [stripTagsGo] using hx
    · simp at hl
  | succ n ih =>
    intro l hl x hx
    rcases l with _ | ⟨c, rest⟩
    · simpa [stripTagsGo] using hx
    · have hrest : rest.length ≤ n := by simp at hl; omega
      rw [stripTagsGo] at hx
      by_cases hc : (c == '<') = true
      · rw [if_pos hc] at hx
        simp only [] at hx
        by_cases h0 : (rest.takeWhile (fun x => x != '>')).length = 0
        · rw [if_pos h0] at hx
          rcases List.mem_cons.mp hx with h | h
          · exact h ▸ List.mem_cons_self c rest
          · exact List.mem_cons_of_mem c (ih rest hrest x h)
        · rw [if_neg h0] at hx
          by_cases hlt : (rest.takeWhile (fun x => x != '>')).length < rest.length
          · rw [if_pos hlt] at hx
            have hx2 := ih (rest.drop ((rest.takeWhile (fun x => x != '>')).length + 1))
              (by simp [List.length_drop]; omega) x hx
            exact List.mem_cons_of_mem c (List.drop_subset _ rest hx2)
          · rw [if_neg hlt] at hx
            rcases List.mem_cons.mp hx with h | h
            · exact h ▸ List.mem_cons_self c rest
            · exact List.mem_cons_of_mem c (ih rest hrest x h)
      · rw [if_neg hc] at hx
        rcases List.mem_cons.mp hx with h | h
        · exact h ▸ List.mem_cons_self c rest
        · exact List.mem_cons_of_mem c (ih rest hrest x h)

theorem mem_stripTags (l : List Char) (x : Char) (hx : x ∈ stripTags l) :
    x ∈ l :=
  mem_stripTagsGo l.length l (Nat.le_refl _) x hx

theorem takeWhile_length_eq_all (p : Char → Bool) :
    ∀ l : List Char, (l.takeWhile p).length = l.length → ∀ x ∈ l, p x = true := by
  intro l
  induction l with
  | nil => intro _ x hx; simp at hx
  | cons a l ih =>
    intro hlen x hx
    rw [List.takeWhile_cons] at hlen
    by_cases h : p a = true
    · rw [if_pos h] at hlen
      simp at hlen
      rcases List.mem_cons.mp hx with h2 | h2
      · exact h2 ▸ h
      · exact ih hlen x h2
    · rw [if_neg h] at hlen
      simp at hlen

/-- No match of `<[^>]+>` survives `stripTags`: every occurrence of the
pattern in the input is consumed, and the scan never manufactures a new
one (a surviving `<` is either immediately followed by `>` or has no `>`
anywhere after it). -/
theorem stripTagsGo_nil (n : Nat) : stripTagsGo n [] = [] := by
  cases n <;> rfl

theorem stripTags_nil : stripTags [] = [] := rfl

theorem length_takeWhile_le' (p : Char → Bool) (l : List Char) :
    (l.takeWhile p).length ≤ l.length := by
  induction l with
  | nil => simp
  | cons a l ih =>
    rw [List.takeWhile_cons]
    by_cases h : p a = true
    · rw [if_pos h]; simp; omega
    · rw [if_neg h]; simp

theorem stripTagsGo_no_tag :
    ∀ (n : Nat) (l : List Char), l.length ≤ n → ¬ HasTagOcc (stripTagsGo n l) := by
  intro n
  induction n with
  | zero =>
    intro l hl h
    rcases l with _ | ⟨c, rest⟩
    · obtain ⟨a, mid, b, heq, _, _⟩ := h
      rw [stripTagsGo_nil] at heq
      have := congrArg List.length heq
      simp at this
      omega
    · simp at hl
  | succ n ih =>
    intro l hl h
    rcases l with _ | ⟨c, rest⟩
    · obtain ⟨a, mid, b, heq, _, _⟩ := h
      rw [stripTagsGo_nil] at heq
      have := congrArg List.length heq
      simp at this
      omega
    · have hrest : rest.length ≤ n := by simp at hl; omega
      rw [stripTagsGo] at h
      by_cases hc : (c == '<') = true
      · rw [if_pos hc] at h
        simp only [] at h
        by_cases h0 : (rest.takeWhile (fun x => x != '>')).length = 0
        · rw [if_pos h0] at h
          obtain ⟨a, mid, b, heq, hne, hnin⟩ := h
          rcases a with _ | ⟨x, a'⟩
          · simp only [List.nil_append] at heq
            injection heq with h1 h2
            rcases rest with _ | ⟨y, r2⟩
            · rw [stripTagsGo_nil] at h2
              have := congrArg List.length h2
              simp at this
              omega
            · have hy : (y != '>') = false := by
                rw [List.takeWhile_cons] at h0
                by_cases hyy : (y != '>') = true
                · rw [if_pos hyy] at h0; simp at h0
                · simpa using hyy
              have hy2 : y = '>' := by
                have : (y == '>') = true := by
                  rcases hbe : y == '>'
                  · rw [bne, hbe] at hy; simp at hy
                  · rfl
                exact eq_of_beq this
              subst hy2
              rcases n with _ | n'
              · simp at hrest
              · rw [stripTagsGo, if_neg (by decide)] at h2
                rcases mid with _ | ⟨z, mid'⟩
                · exact hne rfl
                · simp only [List.cons_append] at h2
                  injection h2 with h3 h4
                  exact hnin (h3 ▸ List.mem_cons_self z mid')
          · rw [List.cons_append] at heq
            injection heq with h1 h2
            exact ih rest hrest ⟨a', mid, b, h2, hne, hnin⟩
        · rw [if_neg h0] at h
          by_cases hlt : (rest.takeWhile (fun x => x != '>')).length < rest.length
          · rw [if_pos hlt] at h
            exact ih (rest.drop ((rest.takeWhile (fun x => x != '>')).length + 1))
              (by simp [List.length_drop]; omega) h
          · rw [if_neg hlt] at h
            obtain ⟨a, mid, b, heq, hne, hnin⟩ := h
            rcases a with _ | ⟨x, a'⟩
            · simp only [List.nil_append] at heq
              injection heq with h1 h2
              have hmem : '>' ∈ stripTagsGo n rest := by
                rw [h2]
                exact List.mem_append_right mid (List.mem_cons_self _ b)
              have hmem2 : '>' ∈ rest := mem_stripTagsGo n rest hrest '>' hmem
              have hall : ∀ x ∈ rest, (x != '>') = true := by
                apply takeWhile_length_eq_all
                have := length_takeWhile_le' (fun x => x != '>') rest
                omega
              have := hall '>' hmem2
              simp at this
            · rw [List.cons_append] at heq
              injection heq with h1 h2
              exact ih rest hrest ⟨a', mid, b, h2, hne, hnin⟩
      · rw [if_neg hc] at h
        obtain ⟨a, mid, b, heq, hne, hnin⟩ := h
        rcases a with _ | ⟨x, a'⟩
        · simp only [List.nil_append] at heq
          injection heq with h1 h2
          exact absurd (h1 ▸ hc) (by simp)
        · rw [List.cons_append] at heq
          injection heq with h1 h2
          exact ih rest hrest ⟨a', mid, b, h2, hne, hnin⟩

theorem stripTags_no_tag (l : List Char) : ¬ HasTagOcc (stripTags l) :=
  stripTagsGo_no_tag l.length l (Nat.le_refl _)

/-- C8: for every markup string and every number of paragraphs,
`extract_paragraphs` returns the blank-line join of at most
`maxParagraphs` paragraphs, each non-empty, trimmed, and free of any
remaining markup-tag match; empty input yields the empty string (and the
function is total, so it never errors). -/
theorem claim_C8 :
    ∀ (m : String) (n : Nat), ∃ ps : List (List Char),
      (extract_paragraphs m n).data = List.intercalate ['\n', '\n'] ps ∧
      ps.length ≤ n ∧
      (∀ p ∈ ps, p ≠ [] ∧ trimChars p = p ∧ ¬ HasTagOcc p) ∧
      (m.data = [] → (extract_paragraphs m n).data = []) := by
  intro m n
  by_cases hm : m.data = []
  · refine ⟨[], ?_, ?_, ?_, ?_⟩
    · unfold extract_paragraphs
      rw [if_pos hm]
      rfl
    · simp
    · intro p hp
      simp at hp
    · intro _
      unfold extract_paragraphs
      rw [if_pos hm]
  · refine ⟨(((splitBlank (trimChars (stripTags (replacePEnd m.data)))).filter
        (fun p => !(trimChars p).isEmpty)).map trimChars).take n, ?_, ?_, ?_, ?_⟩
    · unfold extract_paragraphs
      rw [if_neg hm]
    · exact List.length_take_le n _
    · intro p hp
      have hp2 := List.take_subset n _ hp
      obtain ⟨q, hq, rfl⟩ := List.mem_map.mp hp2
      obtain ⟨hq1, hq2⟩ := List.mem_filter.mp hq
      refine ⟨by simpa using hq2, trimChars_idem q, ?_⟩
      intro hocc
      have h1 : SubSeg (trimChars q) q := trimChars_subseg q
      have h2 : SubSeg q (trimChars (stripTags (replacePEnd m.data))) :=
        splitBlank_subseg _ q hq1
      have h3 : SubSeg (trimChars (stripTags (replacePEnd m.data)))
          (stripTags (replacePEnd m.data)) := trimChars_subseg _
      have h4 : SubSeg (trimChars q) (stripTags (replacePEnd m.data)) :=
        SubSeg.trans' _ _ _ (SubSeg.trans' _ _ _ h1 h2) h3
      have h5 : HasTagOcc (stripTags (replacePEnd m.data)) :=
        hasTagOcc_of_subseg _ _ h4 hocc
      exact stripTags_no_tag (replacePEnd m.data) h5
    · intro h
      exact absurd h hm

/-- C8 witness: the theorem applied to a concrete four-paragraph markup
with a two-paragraph limit. -/
theorem claim_C8_witness :
    ∃ ps : List (List Char),
      (extract_paragraphs ("<p>A trump</p><p>B</p><p>C</p><p>D</p>") 2).data
          = List.intercalate ['\n', '\n'] ps ∧
      ps.length ≤ 2 ∧
      (∀ p ∈ ps, p ≠ [] ∧ trimChars p = p ∧ ¬ HasTagOcc p) ∧
      (("<p>A trump</p><p>B</p><p>C</p><p>D</p>" : String).data = [] →
        (extract_paragraphs ("<p>A trump</p><p>B</p><p>C</p><p>D</p>") 2).data = []) :=
  claim_C8 ("<p>A trump</p><p>B</p><p>C</p><p>D</p>") 2

/-! ### `select_most_relevant_article` (src/api/article_selector.py, lines 95-157) -/

structure Selected where
  headline : String
  excerpt : String
  url : String
  published : String
deriving DecidableEq

/-- Display headline (lines 140-142): `webTitle` defaulting to "Untitled",
overridden by `fields.headline` only when that value is truthy (present
and non-empty). -/
def formatHeadline (a : Article) : String :=
  let h := a.webTitle.getD ("Untitled")
  match a.fields with
  | some f =>
    match f.headline with
    | some fh => if fh ≠ "" then fh else h
    | none => h
  | none => h

def articleBody (a : Article) : String := (a.fields.bind Fields.body).getD ("")

/-- Formatting of the winning article (lines 140-157): the excerpt is the
extracted body, falling back to the headline when empty. -/
def formatArticle (a : Article) : Selected :=
  let headline := formatHeadline a
  let excerpt0 := extract_paragraphs (articleBody a) 3
  let excerpt := if excerpt0 = "" then headline else excerpt0
  ⟨headline, excerpt, a.webUrl.getD (""), a.webPublicationDate.getD ("")⟩

/-- The `(score, article)` pair appended for articles with positive score
(lines 124-129). -/
def scoredEntry (article : Article) : Option (Nat × Article) :=
  let score := calculate_relevance_score article
  if 0 < score then some (score, article) else none

/-- Python's stable `list.sort(key=..., reverse=True)` modelled as a
stable descending insertion sort: an element is inserted before the first
entry whose score does not exceed its own, so equal-score entries keep
their input order. -/
def insertDesc (x : Nat × Article) : List (Nat × Article) → List (Nat × Article)
  | [] => [x]
  | y :: ys => if y.1 ≤ x.1 then x :: y :: ys else y :: insertDesc x ys

def sortDesc : List (Nat × Article) → List (Nat × Article)
  | [] => []
  | x :: xs => insertDesc x (sortDesc xs)

/-- Embeds `select_most_relevant_article(articles)` (lines 95-157). -/
def select_most_relevant_article (articles : List Article) : Option Selected :=
  if articles.isEmpty then none
  else
    let scored := articles.filterMap scoredEntry
    if scored.isEmpty then none
    else
      match sortDesc scored with
      | [] => none
      | (_, best) :: _ => some (formatArticle best)

theorem sortDesc_nil_iff (l : List (Nat × Article)) : sortDesc l = [] ↔ l = [] := by
  constructor
  · intro h
    rcases l with _ | ⟨x, xs⟩
    · rfl
    · rw [sortDesc] at h
      rcases hs : sortDesc xs with _ | ⟨y, ys⟩
      · rw [hs, insertDesc] at h
        exact absurd h (by simp)
      · rw [hs, insertDesc] at h
        by_cases hc : y.1 ≤ x.1
      
        · rw [if_pos hc] at h
          exact absurd h (by simp)
        · rw [if_neg hc] at h
          exact absurd h (by simp)
  · intro h
    rw [h]
    rfl

/-- The head of the stable descending sort is the first entry of maximal
score: every entry weakly below it, every earlier entry strictly below. -/
theorem sortDesc_head :
    ∀ (l : List (Nat × Article)) (p : Nat × Article) (rest : List (Nat × Article)),
      sortDesc l = p :: rest →
      (∀ q ∈ l, q.1 ≤ p.1) ∧ ∃ l₁ l₂, l = l₁ ++ p :: l₂ ∧ ∀ q ∈ l₁, q.1 < p.1 := by
  intro l
  induction l with
  | nil =>
    intro p rest h
    rw [sortDesc] at h
    exact absurd h (by simp)
  | cons x xs ih =>
    intro p rest h
    rw [sortDesc] at h
    rcases hs : sortDesc xs with _ | ⟨y, ys⟩
    · rw [hs, insertDesc] at h
      injection h with h1 h2
      subst h1
      have hxs : xs = [] := (sortDesc_nil_iff xs).mp hs
      subst hxs
      exact ⟨by simp, [], [], rfl, by simp⟩
    · rw [hs, insertDesc] at h
      obtain ⟨hmax, l₁, l₂, hdec, hlt⟩ := ih y ys hs
      by_cases hc : y.1 ≤ x.1
      · rw [if_pos hc] at h
        injection h with h1 h2
        subst h1
        refine ⟨?_, [], xs, rfl, by simp⟩
        intro q hq
        rcases List.mem_cons.mp hq with h3 | h3
        · rw [h3]
        · exact le_trans (hmax q h3) hc
      · rw [if_neg hc] at h
        injection h with h1 h2
        subst h1
        have hc' := Nat.lt_of_not_le hc
        refine ⟨?_, x :: l₁, l₂, by simp [hdec], ?_⟩
        · intro q hq
          rcases List.mem_cons.mp hq with h3 | h3
          · rw [h3]; exact le_of_lt hc'
          · exact hmax q h3
        · intro q hq
          rcases List.mem_cons.mp hq with h3 | h3
          · rw [h3]; exact hc'
          · exact hlt q h3

/-- Decomposing a `filterMap` around a produced element. -/
theorem filterMap_decomp (f : Article → Option (Nat × Article)) :
    ∀ (l : List Article) (s₁ s₂ : List (Nat × Article)) (x : Nat × Article),
      l.filterMap f = s₁ ++ x :: s₂ →
      ∃ l₁ a l₂, l = l₁ ++ a :: l₂ ∧ f a = some x ∧
        l₁.filterMap f = s₁ ∧ l₂.filterMap f = s₂ := by
  intro l
  induction l with
  | nil =>
    intro s₁ s₂ x h
    simp only [List.filterMap_nil] at h
    exfalso
    have := congrArg List.length h
    simp at this
    omega
  | cons a l ih =>
    intro s₁ s₂ x h
    rw [List.filterMap_cons] at h
    rcases hf : f a with _ | b
    · rw [hf] at h
      obtain ⟨l₁, a', l₂, h1, h2, h3, h4⟩ := ih s₁ s₂ x h
      exact ⟨a :: l₁, a', l₂, by simp [h1], h2,
        by simp [List.filterMap_cons, hf, h3], h4⟩
    · rw [hf] at h
      rcases s₁ with _ | ⟨c, s₁'⟩
      · simp only [List.nil_append] at h
        injection h with h1 h2
        exact ⟨[], a, l, rfl, by rw [hf, h1], rfl, h2⟩
      · rw [List.cons_append] at h
        injection h with h1 h2
        obtain ⟨l₁, a', l₂, h3, h4, h5, h6⟩ := ih s₁' s₂ x h2
        exact ⟨a :: l₁, a', l₂, by simp [h3], h4,
          by simp [List.filterMap_cons, hf, h5, h1], h6⟩

/-- Characterization of a successful selection: the winner is the first
article of maximal (positive) relevance score, formatted for display. -/
theorem select_some_spec (articles : List Article) (r : Selected)
    (h : select_most_relevant_article articles = some r) :
    ∃ l₁ best l₂, articles = l₁ ++ best :: l₂ ∧
      0 < calculate_relevance_score best ∧
      (∀ b ∈ l₁, calculate_relevance_score b < calculate_relevance_score best) ∧
      (∀ b ∈ l₂, calculate_relevance_score b ≤ calculate_relevance_score best) ∧
      r = formatArticle best := by
  unfold select_most_relevant_article at h
  by_cases he : articles.isEmpty = true
  · rw [if_pos he] at h
    exact absurd h (by simp)
  · rw [if_neg he] at h
    simp only [] at h
    by_cases hs : (articles.filterMap scoredEntry).isEmpty = true
    · rw [if_pos hs] at h
      exact absurd h (by simp)
    · rw [if_neg hs] at h
      rcases hsort : sortDesc (articles.filterMap scoredEntry) with _ | ⟨⟨s, bestA⟩, restS⟩
      · rw [hsort] at h
        exact absurd h (by simp)
      · rw [hsort] at h
        have hr : r = formatArticle bestA := by
          simp only [Option.some.injEq] at h
          exact h.symm
        obtain ⟨hmax, s₁, s₂, hdec, hlt⟩ := sortDesc_head _ _ _ hsort
        obtain ⟨l₁, a, l₂, hl, hfa, hf1, hf2⟩ :=
          filterMap_decomp scoredEntry articles s₁ s₂ (s, bestA) hdec
        have hfa2 : a = bestA ∧ s = calculate_relevance_score a ∧
            0 < calculate_relevance_score a := by
          unfold scoredEntry at hfa
          simp only [] at hfa
          by_cases hpos : 0 < calculate_relevance_score a
          · rw [if_pos hpos] at hfa
            simp only [Option.some.injEq, Prod.mk.injEq] at hfa
            exact ⟨hfa.2, hfa.1.symm, hpos⟩
          · rw [if_neg hpos] at hfa
            exact absurd hfa (by simp)
        obtain ⟨haeq, hseq, hpos⟩ := hfa2
        subst haeq
        refine ⟨l₁, a, l₂, hl, hpos, ?_, ?_, hr⟩
        · intro b hb
          by_cases hbp : 0 < calculate_relevance_score b
          · have hmem : (calculate_relevance_score b, b) ∈ List.filterMap scoredEntry l₁ := by
              apply List.mem_filterMap.mpr
              exact ⟨b, hb, by simp [scoredEntry, if_pos hbp]⟩
            rw [hf1] at hmem
            have hcmp := hlt _ hmem
            simp at hcmp
            omega
          · omega
        · intro b hb
          by_cases hbp : 0 < calculate_relevance_score b
          · have hmem : (calculate_relevance_score b, b) ∈ List.filterMap scoredEntry l₂ := by
              apply List.mem_filterMap.mpr
              exact ⟨b, hb, by simp [scoredEntry, if_pos hbp]⟩
            have hmem2 : (calculate_relevance_score b, b) ∈ articles.filterMap scoredEntry := by
              rw [hdec]
              apply List.mem_append_right
              apply List.mem_cons_of_mem
              rw [← hf2]
              exact hmem
            have hcmp := hmax _ hmem2
            simp at hcmp
            omega
          · omega

/-- A selection is "no selection" exactly when no article scores
positively (scores are counts, hence zero). -/
theorem select_none_iff (articles : List Article) :
    select_most_relevant_article articles = none ↔
      ∀ a ∈ articles, calculate_relevance_score a = 0 := by
  constructor
  · intro h a ha
    by_contra hne
    have hpos : 0 < calculate_relevance_score a := Nat.pos_of_ne_zero hne
    have hmem : (calculate_relevance_score a, a) ∈ articles.filterMap scoredEntry :=
      List.mem_filterMap.mpr ⟨a, ha, by simp [scoredEntry, if_pos hpos]⟩
    have hne2 : articles.filterMap scoredEntry ≠ [] := by
      intro hnil
      rw [hnil] at hmem
      simp at hmem
    have hane : articles ≠ [] := by
      intro hnil
      subst hnil
      simp at ha
    unfold select_most_relevant_article at h
    rw [if_neg (by simpa using hane)] at h
    simp only [] at h
    rw [if_neg (by simpa using hne2)] at h
    rcases hsort : sortDesc (articles.filterMap scoredEntry) with _ | ⟨⟨s, bestA⟩, restS⟩
    · exact hne2 ((sortDesc_nil_iff _).mp hsort)
    · rw [hsort] at h
      exact absurd h (by simp)
  · intro hall
    unfold select_most_relevant_article
    by_cases he : articles.isEmpty = true
    · rw [if_pos he]
    · rw [if_neg he]
      simp only []
      have hnil : articles.filterMap scoredEntry = [] := by
        apply List.filterMap_eq_nil_iff.mpr
        intro a ha
        have := hall a ha
        simp [scoredEntry, this]
      rw [if_pos (by simp [hnil])]

/-- C1: selection returns "no selection" exactly when the list is empty or
no candidate has positive score; otherwise it returns the formatted
maximum-score candidate, the earliest such candidate in input order on
ties (stable sort). -/
theorem claim_C1 :
    ∀ articles : List Article,
      (select_most_relevant_article articles = none ↔
        ∀ a ∈ articles, calculate_relevance_score a = 0) ∧
      (∀ r, select_most_relevant_article articles = some r →
        ∃ l₁ best l₂, articles = l₁ ++ best :: l₂ ∧
          0 < calculate_relevance_score best ∧
          (∀ b ∈ l₁, calculate_relevance_score b < calculate_relevance_score best) ∧
          (∀ b ∈ l₂, calculate_relevance_score b ≤ calculate_relevance_score best) ∧
          r = formatArticle best) :=
  fun articles =>
    ⟨select_none_iff articles, fun r h => select_some_spec articles r h⟩

/-- Two tied articles used to witness the stable tie-break. -/
def artTieA : Article :=
  ⟨some ("Trump speaks"), none, some ("uA"), some ("2024-01-01")⟩

def artTieB : Article :=
  ⟨some ("Trump replies"), none, some ("uB"), some ("2024-01-02")⟩

/-- C1 witness: on two equal-score articles the selection picks the first,
and the characterization instantiates accordingly. -/
theorem claim_C1_witness :
    ∃ l₁ best l₂, [artTieA, artTieB] = l₁ ++ best :: l₂ ∧
      0 < calculate_relevance_score best ∧
      (∀ b ∈ l₁, calculate_relevance_score b < calculate_relevance_score best) ∧
      (∀ b ∈ l₂, calculate_relevance_score b ≤ calculate_relevance_score best) ∧
      formatArticle artTieA = formatArticle best :=
  (claim_C1 [artTieA, artTieB]).2 (formatArticle artTieA) (by decide)

/-- The article refuting "excerpt is never empty": its `webTitle` is
present but empty, its body mentions the keyword only inside a markup
tag, so it is selected (score 1 from the body) yet both the extracted
excerpt and the fallback headline are empty. -/
def cexArticle : Article :=
  ⟨some (""), some ⟨none, some ("<img alt=\"trump\">")⟩, some ("u"), some ("2020-01-01")⟩

/-- C7 (counterexample): the claim "the returned record's excerpt field is
non-empty" fails on `[cexArticle]` — an article is returned and its
excerpt is the empty string. -/
theorem claim_C7_counterexample :
    (select_most_relevant_article [cexArticle]).map Selected.excerpt = some ("") := by
  decide

/-- C7 (amended): whenever selection returns an article, its excerpt is
the extracted body excerpt when that is non-empty and otherwise the
headline; consequently the excerpt is non-empty whenever the headline is
non-empty (the headline can only be empty when `webTitle` is present and
empty, since an absent `webTitle` defaults to "Untitled"). -/
theorem claim_C7 :
    ∀ (articles : List Article) (r : Selected),
      select_most_relevant_article articles = some r →
      ∃ best, (∃ l₁ l₂, articles = l₁ ++ best :: l₂) ∧
        r = formatArticle best ∧
        r.excerpt = (if extract_paragraphs (articleBody best) 3 = "" then r.headline
          else extract_paragraphs (articleBody best) 3) ∧
        (r.headline ≠ "" → r.excerpt ≠ "") := by
  intro articles r h
  obtain ⟨l₁, best, l₂, hl, _, _, _, hr⟩ := select_some_spec articles r h
  subst hr
  refine ⟨best, ⟨l₁, l₂, hl⟩, rfl, rfl, ?_⟩
  intro hh
  have hexc : (formatArticle best).excerpt =
      if extract_paragraphs (articleBody best) 3 = "" then formatHeadline best
      else extract_paragraphs (articleBody best) 3 := rfl
  rw [hexc]
  by_cases hcase : extract_paragraphs (articleBody best) 3 = ""
  · rw [if_pos hcase]
    exact hh
  · rw [if_neg hcase]
    exact hcase

/-- C7 witness: the amended statement applied to a concrete selection. -/
theorem claim_C7_witness :
    ∃ best, (∃ l₁ l₂, [artTieA] = l₁ ++ best :: l₂) ∧
      formatArticle artTieA = formatArticle best ∧
      (formatArticle artTieA).excerpt =
        (if extract_paragraphs (articleBody best) 3 = ""
          then (formatArticle artTieA).headline
          else extract_paragraphs (articleBody best) 3) ∧
      ((formatArticle artTieA).headline ≠ "" → (formatArticle artTieA).excerpt ≠ "") :=
  claim_C7 [artTieA] (formatArticle artTieA) (by decide)

/-! ### `date_calculator` (src/src/date_calculator.py)

Dates are proleptic-Gregorian `(year, month, day)` triples.  Python's
`date` arithmetic (`timedelta` addition/subtraction, comparisons and
`weekday()`) factors through `date.toordinal()`, so the two derived-date
functions below return the *ordinal* of the date they produce; `weekday`
of an ordinal `o` is `(o - 1) % 7` (Monday = 0, since ordinal 1,
0001-01-01, is a Monday). -/

structure Date where
  year : Nat
  month : Nat
  day : Nat
deriving DecidableEq

def isLeap (y : Nat) : Bool := (y % 4 == 0 && y % 100 != 0) || y % 400 == 0

def daysInMonth (y m : Nat) : Nat :=
  if m = 2 then (if isLeap y then 29 else 28)
  else if m = 4 ∨ m = 6 ∨ m = 9 ∨ m = 11 then 30
  else 31

/-- Days of year `y` falling strictly before month `m + 1`. -/
def daysBeforeMonth (y : Nat) : Nat → Nat
  | 0 => 0
  | m + 1 => daysBeforeMonth y m + daysInMonth y (m + 1)

def daysBeforeYear (y : Nat) : Nat :=
  365 * (y - 1) + (y - 1) / 4 - (y - 1) / 100 + (y - 1) / 400

def toOrdinal (d : Date) : Nat :=
  daysBeforeYear d.year + daysBeforeMonth d.year (d.month - 1) + d.day

/-- Python `date.weekday()`: Monday = 0. -/
def wd (d : Date) : Nat := (toOrdinal d - 1) % 7

def ValidDate (d : Date) : Prop :=
  1 ≤ d.year ∧ 1 ≤ d.month ∧ d.month ≤ 12 ∧ 1 ≤ d.day ∧
    d.day ≤ daysInMonth d.year d.month

instance (d : Date) : Decidable (ValidDate d) := by
  unfold ValidDate
  infer_instance

/-- Embeds `reference_date - relativedelta(months=1)`: previous calendar month,
day clamped to the target month's length. -/
def oneMonthBack (d : Date) : Date :=
  if d.month = 1 then ⟨d.year - 1, 12, min d.day 31⟩
  else ⟨d.year, d.month - 1, min d.day (daysInMonth d.year (d.month - 1))⟩

/-- Embeds `get_one_month_ago` (lines 38-65), returning the ordinal of the
produced date. -/
def get_one_month_ago (referenceDate : Date) : Nat :=
  let back := oneMonthBack referenceDate
  let weekdayDiff := (7 + wd referenceDate - wd back) % 7
  let result := toOrdinal back + weekdayDiff
  if toOrdinal referenceDate < result then result - 7 else result

/-- The first date at or after `start_date` sharing `reference_date`'s
weekday (as an ordinal): `start + ((target - start.weekday) % 7) days`. -/
def firstValidOrd (referenceDate startDate : Date) : Nat :=
  toOrdinal startDate + (7 + wd referenceDate - wd startDate) % 7

def weeksBetween (referenceDate startDate : Date) : Nat :=
  (toOrdinal referenceDate - firstValidOrd referenceDate startDate) / 7

/-- Embeds `get_random_week_same_day` (lines 68-117), returning the ordinal of
the produced date.  The draw of `random.randint(0, weeks_between - 1)` is
modelled by the parameter `k`; the function's control flow does not
depend on it. -/
def get_random_week_same_day (referenceDate startDate : Date) (k : Nat) :
    Except String Nat :=
  if toOrdinal referenceDate ≤ toOrdinal startDate then
    Except.error ("start_date must be before reference_date")
  else if toOrdinal referenceDate ≤ firstValidOrd referenceDate startDate then
    Except.error ("Date range too small to find matching weekday")
  else if weeksBetween referenceDate startDate < 1 then
    Except.error ("Date range too small to find matching weekday")
  else
    Except.ok (firstValidOrd referenceDate startDate + 7 * k)

theorem daysInMonth_ge_28 (y m : Nat) : 28 ≤ daysInMonth y m := by
  unfold daysInMonth
  split
  · split <;> omega
  · split <;> omega

theorem toOrdinal_pos (d : Date) (h : 1 ≤ d.day) : 1 ≤ toOrdinal d := by
  unfold toOrdinal
  omega

set_option maxHeartbeats 1600000 in
theorem daysBeforeYear_succ (z : Nat) (hz : 1 ≤ z) :
    daysBeforeYear (z + 1) = daysBeforeYear z + (if isLeap z then 366 else 365) := by
  rcases hL : isLeap z
  · rw [if_neg (by simp [hL])]
    have hc : ¬ ((z % 4 = 0 ∧ z % 100 ≠ 0) ∨ z % 400 = 0) := by
      simpa [isLeap] using hL
    push_neg at hc
    obtain ⟨hc1, hc2⟩ := hc
    unfold daysBeforeYear
    by_cases h4 : z % 4 = 0
    · have h100 := hc1 h4
      omega
    · omega
  · rw [if_pos (by simp [hL])]
    have hc : (z % 4 = 0 ∧ z % 100 ≠ 0) ∨ z % 400 = 0 := by
      simpa [isLeap] using hL
    unfold daysBeforeYear
    rcases hc with ⟨h4, h100⟩ | h400
    · omega
    · omega

theorem daysBeforeMonth_11 (y : Nat) :
    daysBeforeMonth y 11 = 334 + (if isLeap y then 1 else 0) := by
  by_cases h : isLeap y = true <;>
    norm_num [daysBeforeMonth, daysInMonth, h]

/-- Going back one calendar month moves the ordinal back by at least 28
days (the clamped previous month has at least 28 days). -/
theorem oneMonthBack_le (d : Date) (hv : ValidDate d) (hy : 2 ≤ d.year) :
    toOrdinal (oneMonthBack d) + 28 ≤ toOrdinal d := by
  obtain ⟨hy1, hm1, hm12, hd1, hdle⟩ := hv
  unfold oneMonthBack
  by_cases hm : d.month = 1
  · rw [if_pos hm]
    unfold toOrdinal
    simp only []
    rcases hz : d.year - 1 with _ | z
    · omega
    · have hyz : d.year = (z + 1) + 1 := by omega
      have hdd : d.day ≤ 31 := by
        have := hdle
        rw [hm] at this
        simpa [daysInMonth] using this
      rw [hyz, daysBeforeYear_succ (z + 1) (by omega)]
      have h11 : (12 : Nat) - 1 = 11 := by norm_num
      rw [hz] at *
      rw [h11, daysBeforeMonth_11]
      rw [hm]
      simp only [Nat.sub_self, daysBeforeMonth]
      by_cases hL : isLeap (z + 1) = true <;> simp [hL] <;> omega
  · rw [if_neg hm]
    unfold toOrdinal
    simp only []
    have hrec : daysBeforeMonth d.year (d.month - 1)
        = daysBeforeMonth d.year (d.month - 2) + daysInMonth d.year (d.month - 1) := by
      have hm2 : d.month - 1 = (d.month - 2) + 1 := by omega
      rw [hm2, daysBeforeMonth, ← hm2]
    have h1 : d.month - 1 - 1 = d.month - 2 := by omega
    rw [hrec, h1]
    have hdim := daysInMonth_ge_28 d.year (d.month - 1)
    omega

theorem wd_lt_7 (d : Date) : wd d < 7 := Nat.mod_lt _ (by norm_num)

/-- C6: for every valid reference date of year at least 2 (the proleptic
calendar's month-back operation underflows on January of year 1),
`get_one_month_ago` produces a date with the reference's weekday that is
strictly before the reference, month-end clamping included. -/
theorem claim_C6 :
    ∀ d : Date, ValidDate d → 2 ≤ d.year →
      (get_one_month_ago d - 1) % 7 = wd d ∧ get_one_month_ago d < toOrdinal d := by
  intro d hv hy
  have hA : toOrdinal (oneMonthBack d) + 28 ≤ toOrdinal d := oneMonthBack_le d hv hy
  have hO1 : 1 ≤ toOrdinal (oneMonthBack d) := by
    apply toOrdinal_pos
    unfold oneMonthBack
    obtain ⟨hy1, hm1, hm12, hd1, hdle⟩ := hv
    have := daysInMonth_ge_28 d.year (d.month - 1)
    by_cases hm : d.month = 1 <;> simp [hm] <;> omega
  have ha7 : wd d < 7 := wd_lt_7 d
  have hb7 : wd (oneMonthBack d) < 7 := wd_lt_7 (oneMonthBack d)
  have hbdef : wd (oneMonthBack d) = (toOrdinal (oneMonthBack d) - 1) % 7 := rfl
  unfold get_one_month_ago
  simp only []
  have hdiff : (7 + wd d - wd (oneMonthBack d)) % 7 < 7 := Nat.mod_lt _ (by norm_num)
  rw [if_neg (by omega)]
  constructor
  · omega
  · omega

/-- C6 witness: the month-end clamping case 2024-03-31 (a Sunday; one
month back clamps to 2024-02-29). -/
theorem claim_C6_witness :
    ValidDate ⟨2024, 3, 31⟩ ∧ 2 ≤ (2024 : Nat) ∧
      (get_one_month_ago ⟨2024, 3, 31⟩ - 1) % 7 = wd ⟨2024, 3, 31⟩ ∧
      get_one_month_ago ⟨2024, 3, 31⟩ < toOrdinal ⟨2024, 3, 31⟩ :=
  ⟨by decide, by decide, claim_C6 ⟨2024, 3, 31⟩ (by decide) (by decide)⟩

/-- C2: `get_random_week_same_day` raises `ValueError` exactly when
`start >= reference`, or the first matching-weekday date at or after
`start` is at or after `reference`, or fewer than one full week fits
between that first valid date and `reference`; on every draw within the
drawn range it returns a date `d` with `start <= d < reference` and
`d.weekday == reference.weekday`. -/
theorem claim_C2 :
    ∀ (referenceDate startDate : Date) (k : Nat),
      ValidDate referenceDate → ValidDate startDate →
      ((∃ e, get_random_week_same_day referenceDate startDate k = Except.error e) ↔
        (toOrdinal referenceDate ≤ toOrdinal startDate ∨
          toOrdinal referenceDate ≤ firstValidOrd referenceDate startDate ∨
          weeksBetween referenceDate startDate < 1)) ∧
      (∀ d, get_random_week_same_day referenceDate startDate k = Except.ok d →
        k < weeksBetween referenceDate startDate →
        toOrdinal startDate ≤ d ∧ d < toOrdinal referenceDate ∧
          (d - 1) % 7 = wd referenceDate) := by
  intro referenceDate startDate k hvr hvs
  constructor
  · unfold get_random_week_same_day
    by_cases h1 : toOrdinal referenceDate ≤ toOrdinal startDate
    · rw [if_pos h1]
      exact ⟨fun _ => Or.inl h1, fun _ => ⟨_, rfl⟩⟩
    · rw [if_neg h1]
      by_cases h2 : toOrdinal referenceDate ≤ firstValidOrd referenceDate startDate
      · rw [if_pos h2]
        exact ⟨fun _ => Or.inr (Or.inl h2), fun _ => ⟨_, rfl⟩⟩
      · rw [if_neg h2]
        by_cases h3 : weeksBetween referenceDate startDate < 1
        · rw [if_pos h3]
          exact ⟨fun _ => Or.inr (Or.inr h3), fun _ => ⟨_, rfl⟩⟩
        · rw [if_neg h3]
          constructor
          · intro he
            obtain ⟨e, he⟩ := he
            exact absurd he (by simp)
          · intro hor
            rcases hor with h | h | h
            · exact absurd h h1
            · exact absurd h h2
            · exact absurd h h3
  · intro d hd hk
    unfold get_random_week_same_day at hd
    by_cases h1 : toOrdinal referenceDate ≤ toOrdinal startDate
    · rw [if_pos h1] at hd
      exact absurd hd (by simp)
    · rw [if_neg h1] at hd
      by_cases h2 : toOrdinal referenceDate ≤ firstValidOrd referenceDate startDate
      · rw [if_pos h2] at hd
        exact absurd hd (by simp)
      · rw [if_neg h2] at hd
        by_cases h3 : weeksBetween referenceDate startDate < 1
        · rw [if_pos h3] at hd
          exact absurd hd (by simp)
        · rw [if_neg h3] at hd
          have hdeq : d = firstValidOrd referenceDate startDate + 7 * k := by
            injection hd with h'
            exact h'.symm
          subst hdeq
          have hS1 : 1 ≤ toOrdinal startDate := toOrdinal_pos startDate hvs.2.2.2.1
          have ha7 : wd referenceDate < 7 := wd_lt_7 referenceDate
          have hb7 : wd startDate < 7 := wd_lt_7 startDate
          have hF : firstValidOrd referenceDate startDate
              = toOrdinal startDate + (7 + wd referenceDate - wd startDate) % 7 := rfl
          have hW : weeksBetween referenceDate startDate
              = (toOrdinal referenceDate - firstValidOrd referenceDate startDate) / 7 := rfl
          have hwdr : wd referenceDate = (toOrdinal referenceDate - 1) % 7 := rfl
          have hwds : wd startDate = (toOrdinal startDate - 1) % 7 := rfl
          refine ⟨by omega, by omega, by omega⟩

/-- C2 witness: reference 2024-01-28, start 2016-05-26, draw 0. -/
theorem claim_C2_witness :
    ValidDate ⟨2024, 1, 28⟩ ∧ ValidDate ⟨2016, 5, 26⟩ ∧
      (toOrdinal ⟨2016, 5, 26⟩ ≤ 736113 ∧ 736113 < toOrdinal ⟨2024, 1, 28⟩ ∧
        (736113 - 1) % 7 = wd ⟨2024, 1, 28⟩) :=
  ⟨by decide, by decide,
    (claim_C2 ⟨2024, 1, 28⟩ ⟨2016, 5, 26⟩ 0 (by decide) (by decide)).2
      736113 (by rfl) (by decide)⟩

/-! ### The response caches

Two variants exist in the source: `src/api/news_cache.py` expires on a
4-hour TTL over timestamps, `src/src/news_cache.py` on calendar-day
change.  Python mutation is modelled by state passing: `get`/`has`
return their answer together with the updated cache.  Cached payloads
are modelled as `Option Nat` with `none` playing Python's `None`:
`dict.get` returns the stored value or `None`, so a stored `None` and a
missing key give the same `get` answer (which is why C10 assumes stored
values are non-`None`).  An empty `fields`-style distinction does not
arise here; dictionaries are association lists. -/

abbrev CacheVal := Option Nat

def lookupKV : List (String × CacheVal) → String → Option CacheVal
  | [], _ => none
  | (k', v) :: rest, k => if k' = k then some v else lookupKV rest k

def storeKV : List (String × CacheVal) → String → CacheVal → List (String × CacheVal)
  | [], k, v => [(k, v)]
  | (k', v') :: rest, k, v =>
    if k' = k then (k, v) :: rest else (k', v') :: storeKV rest k v

theorem lookupKV_mem (l : List (String × CacheVal)) (k : String) (v : CacheVal)
    (h : lookupKV l k = some v) : (k, v) ∈ l := by
  induction l with
  | nil => exact absurd h (by simp [lookupKV])
  | cons kv rest ih =>
    rcases kv with ⟨k', v'⟩
    rw [lookupKV] at h
    by_cases hk : k' = k
    · rw [if_pos hk] at h
      subst hk
      injection h with h'
      subst h'
      exact List.mem_cons_self _ _
    · rw [if_neg hk] at h
      exact List.mem_cons_of_mem _ (ih h)

namespace ApiNews

/-- Constant `CACHE_TTL_HOURS = 4` (src/api/news_cache.py, line 11). -/
def CACHE_TTL_HOURS : Nat := 4

/-- The TTL cache state: `_cache` plus the freshness anchor `_cache_time`
(timestamps in seconds since an arbitrary epoch). -/
structure NewsCache where
  cache : List (String × CacheVal)
  cacheTime : Option Nat
deriving DecidableEq

/-- Embeds `_check_and_clear_expired_cache` (lines 29-43): `datetime` subtraction
is signed, so `elapsed >= timedelta(hours=4)` holds exactly when
`anchor + 4 * 3600 <= now`. -/
def NewsCache.check_and_clear_expired_cache (c : NewsCache) (now : Nat) : NewsCache :=
  match c.cacheTime with
  | none => { c with cacheTime := some now }
  | some t =>
    if t + CACHE_TTL_HOURS * 3600 ≤ now then ⟨[], some now⟩ else c

/-- Embeds `get` (lines 45-70). -/
def NewsCache.get (c : NewsCache) (option : String) (now : Nat) :
    CacheVal × NewsCache :=
  if option = "random" then (none, c)
  else
    let c2 := c.check_and_clear_expired_cache now
    ((lookupKV c2.cache option).join, c2)

/-- Embeds `set` (lines 72-95). -/
def NewsCache.set (c : NewsCache) (option : String) (data : CacheVal)
    (now : Nat) : NewsCache :=
  if option = "random" then c
  else
    let c2 := c.check_and_clear_expired_cache now
    { c2 with cache := storeKV c2.cache option data }

/-- Embeds `clear` (lines 97-99). -/
def NewsCache.clear (_c : NewsCache) : NewsCache := ⟨[], none⟩

/-- Embeds `has` (lines 102-123). -/
def NewsCache.has (c : NewsCache) (option : String) (now : Nat) :
    Bool × NewsCache :=
  if option = "random" then (false, c)
  else
    let c2 := c.check_and_clear_expired_cache now
    ((lookupKV c2.cache option).isSome, c2)

end ApiNews

namespace DayNews

/-- The calendar-day cache state: `_cache` plus the anchor `_cache_date`
(src/src/news_cache.py). -/
structure NewsCache where
  cache : List (String × CacheVal)
  cacheDate : Option Date
deriving DecidableEq

/-- Embeds `_check_and_clear_old_cache` (lines 26-38): any date different from
the anchor clears. -/
def NewsCache.check_and_clear_old_cache (c : NewsCache) (currentDate : Date) :
    NewsCache :=
  match c.cacheDate with
  | none => { c with cacheDate := some currentDate }
  | some d0 =>
    if d0 ≠ currentDate then ⟨[], some currentDate⟩ else c

/-- Embeds `get` (lines 40-65). -/
def NewsCache.get (c : NewsCache) (option : String) (currentDate : Date) :
    CacheVal × NewsCache :=
  if option = "random" then (none, c)
  else
    let c2 := c.check_and_clear_old_cache currentDate
    ((lookupKV c2.cache option).join, c2)

/-- Embeds `set` (lines 67-90). -/
def NewsCache.set (c : NewsCache) (option : String) (data : CacheVal)
    (currentDate : Date) : NewsCache :=
  if option = "random" then c
  else
    let c2 := c.check_and_clear_old_cache currentDate
    { c2 with cache := storeKV c2.cache option data }

/-- Embeds `clear` (lines 92-94). -/
def NewsCache.clear (_c : NewsCache) : NewsCache := ⟨[], none⟩

/-- Embeds `has` (lines 97-118). -/
def NewsCache.has (c : NewsCache) (option : String) (currentDate : Date) :
    Bool × NewsCache :=
  if option = "random" then (false, c)
  else
    let c2 := c.check_and_clear_old_cache currentDate
    ((lookupKV c2.cache option).isSome, c2)

end DayNews

/-- C3 (counterexample): the claim quantifies over *every* `get`/`set`/
`has` call at an expired time, but a call with the volatile key
`'random'` returns before the expiry check: here the anchor is 0, the
call time 20000 is past the 4-hour window, yet after `get('random')` the
stored entry survives and the anchor is unchanged — not "every stored
entry is dropped and the anchor reset". -/
theorem claim_C3_counterexample :
    (0 : Nat) + ApiNews.CACHE_TTL_HOURS * 3600 ≤ 20000 ∧
      (ApiNews.NewsCache.get ⟨[("one_week", some 1)], some 0⟩ ("random") 20000).2
        = ⟨[("one_week", some 1)], some 0⟩ := by
  decide

/-- C3 (amended): in both cache variants, whenever `get`, `set` or `has`
is called *with a non-volatile key* at a time at which the freshness
condition no longer holds relative to the anchor, every stored entry
under every key is dropped at once (for `set`, only the newly stored pair
remains) and the anchor is reset to the call's time; in particular a
second key set before expiry is also gone after expiry. -/
theorem claim_C3 :
    (∀ (c : ApiNews.NewsCache) (t now : Nat) (k : String) (v : CacheVal),
      c.cacheTime = some t → t + ApiNews.CACHE_TTL_HOURS * 3600 ≤ now →
      k ≠ "random" →
        (c.get k now).2.cache = [] ∧ (c.get k now).2.cacheTime = some now ∧
        (c.has k now).2.cache = [] ∧ (c.has k now).2.cacheTime = some now ∧
        (c.set k v now).cache = [(k, v)] ∧ (c.set k v now).cacheTime = some now) ∧
    (∀ (c : DayNews.NewsCache) (d0 today : Date) (k : String) (v : CacheVal),
      c.cacheDate = some d0 → d0 ≠ today → k ≠ "random" →
        (c.get k today).2.cache = [] ∧ (c.get k today).2.cacheDate = some today ∧
        (c.has k today).2.cache = [] ∧ (c.has k today).2.cacheDate = some today ∧
        (c.set k v today).cache = [(k, v)] ∧
          (c.set k v today).cacheDate = some today) := by
  constructor
  · intro c t now k v ht hexp hk
    have hc2 : c.check_and_clear_expired_cache now
        = (⟨[], some now⟩ : ApiNews.NewsCache) := by
      unfold ApiNews.NewsCache.check_and_clear_expired_cache
      simp only [ht]
      rw [if_pos hexp]
    refine ⟨?_, ?_, ?_, ?_, ?_, ?_⟩ <;>
      simp [ApiNews.NewsCache.get, ApiNews.NewsCache.has, ApiNews.NewsCache.set,
        hk, hc2, storeKV]
  · intro c d0 today k v hd hne hk
    have hc2 : c.check_and_clear_old_cache today
        = (⟨[], some today⟩ : DayNews.NewsCache) := by
      unfold DayNews.NewsCache.check_and_clear_old_cache
      simp only [hd]
      rw [if_pos hne]
    refine ⟨?_, ?_, ?_, ?_, ?_, ?_⟩ <;>
      simp [DayNews.NewsCache.get, DayNews.NewsCache.has, DayNews.NewsCache.set,
        hk, hc2, storeKV]

/-- C3 witness: a two-entry TTL cache anchored at 0 cleared entirely by a
`get` at 14400 s, and a one-entry day cache anchored on 2024-01-01
cleared by a `set` on 2024-01-02. -/
theorem claim_C3_witness :
    ((ApiNews.NewsCache.get ⟨[("one_week", some 1), ("two_weeks", some 2)], some 0⟩
        ("one_week") 14400).2.cache = [] ∧
      (ApiNews.NewsCache.get ⟨[("one_week", some 1), ("two_weeks", some 2)], some 0⟩
        ("one_week") 14400).2.cacheTime = some 14400 ∧
      (ApiNews.NewsCache.has ⟨[("one_week", some 1), ("two_weeks", some 2)], some 0⟩
        ("one_week") 14400).2.cache = [] ∧
      (ApiNews.NewsCache.has ⟨[("one_week", some 1), ("two_weeks", some 2)], some 0⟩
        ("one_week") 14400).2.cacheTime = some 14400 ∧
      (ApiNews.NewsCache.set ⟨[("one_week", some 1), ("two_weeks", some 2)], some 0⟩
        ("one_week") (some 9) 14400).cache = [("one_week", some 9)] ∧
      (ApiNews.NewsCache.set ⟨[("one_week", some 1), ("two_weeks", some 2)], some 0⟩
        ("one_week") (some 9) 14400).cacheTime = some 14400) ∧
    ((DayNews.NewsCache.get ⟨[("one_week", some 1)], some ⟨2024, 1, 1⟩⟩
        ("one_week") ⟨2024, 1, 2⟩).2.cache = [] ∧
      (DayNews.NewsCache.get ⟨[("one_week", some 1)], some ⟨2024, 1, 1⟩⟩
        ("one_week") ⟨2024, 1, 2⟩).2.cacheDate = some ⟨2024, 1, 2⟩ ∧
      (DayNews.NewsCache.has ⟨[("one_week", some 1)], some ⟨2024, 1, 1⟩⟩
        ("one_week") ⟨2024, 1, 2⟩).2.cache = [] ∧
      (DayNews.NewsCache.has ⟨[("one_week", some 1)], some ⟨2024, 1, 1⟩⟩
        ("one_week") ⟨2024, 1, 2⟩).2.cacheDate = some ⟨2024, 1, 2⟩ ∧
      (DayNews.NewsCache.set ⟨[("one_week", some 1)], some ⟨2024, 1, 1⟩⟩
        ("one_week") (some 9) ⟨2024, 1, 2⟩).cache = [("one_week", some 9)] ∧
      (DayNews.NewsCache.set ⟨[("one_week", some 1)], some ⟨2024, 1, 1⟩⟩
        ("one_week") (some 9) ⟨2024, 1, 2⟩).cacheDate = some ⟨2024, 1, 2⟩) :=
  ⟨claim_C3.1 ⟨[("one_week", some 1), ("two_weeks", some 2)], some 0⟩ 0 14400
      ("one_week") (some 9) rfl (by decide) (by decide),
    claim_C3.2 ⟨[("one_week", some 1)], some ⟨2024, 1, 1⟩⟩ ⟨2024, 1, 1⟩
      ⟨2024, 1, 2⟩ ("one_week") (some 9) rfl (by decide) (by decide)⟩

/-- C9: in both variants, `get('random')` misses unconditionally and
leaves the state untouched, and `set('random', v)` is a complete no-op on
the state (entries and anchor), regardless of prior calls. -/
theorem claim_C9 :
    (∀ (c : ApiNews.NewsCache) (now : Nat) (v : CacheVal),
      c.get ("random") now = (none, c) ∧ c.set ("random") v now = c) ∧
    (∀ (c : DayNews.NewsCache) (today : Date) (v : CacheVal),
      c.get ("random") today = (none, c) ∧ c.set ("random") v today = c) := by
  constructor
  · intro c now v
    constructor <;> rfl
  · intro c today v
    constructor <;> rfl

theorem api_check_cache_sub (c : ApiNews.NewsCache) (now : Nat) :
    (c.check_and_clear_expired_cache now).cache = c.cache ∨
      (c.check_and_clear_expired_cache now).cache = [] := by
  rcases c with ⟨cache, _ | t⟩
  · exact Or.inl rfl
  · by_cases h : t + ApiNews.CACHE_TTL_HOURS * 3600 ≤ now
    · exact Or.inr (by simp [ApiNews.NewsCache.check_and_clear_expired_cache, h])
    · exact Or.inl (by simp [ApiNews.NewsCache.check_and_clear_expired_cache, h])

theorem day_check_cache_sub (c : DayNews.NewsCache) (today : Date) :
    (c.check_and_clear_old_cache today).cache = c.cache ∨
      (c.check_and_clear_old_cache today).cache = [] := by
  rcases c with ⟨cache, _ | d0⟩
  · exact Or.inl rfl
  · by_cases h : d0 = today
    · exact Or.inl (by simp [DayNews.NewsCache.check_and_clear_old_cache, h])
    · exact Or.inr (by simp [DayNews.NewsCache.check_and_clear_old_cache, h])

/-- C10: in both variants, on any state whose stored values are all
non-`None`, `has` answers true exactly when `get` on the same state
returns a stored value, and `has` and `get` leave behind the identical
state (same first-observation anchoring and expiry reset). -/
theorem claim_C10 :
    (∀ (c : ApiNews.NewsCache) (k : String) (now : Nat),
      k ≠ "random" → (∀ kv ∈ c.cache, kv.2 ≠ none) →
        (((c.has k now).1 = true) ↔ ∃ v, (c.get k now).1 = some v)) ∧
    (∀ (c : ApiNews.NewsCache) (k : String) (now : Nat),
      (c.has k now).2 = (c.get k now).2) ∧
    (∀ (c : DayNews.NewsCache) (k : String) (today : Date),
      k ≠ "random" → (∀ kv ∈ c.cache, kv.2 ≠ none) →
        (((c.has k today).1 = true) ↔ ∃ v, (c.get k today).1 = some v)) ∧
    (∀ (c : DayNews.NewsCache) (k : String) (today : Date),
      (c.has k today).2 = (c.get k today).2) := by
  refine ⟨?_, ?_, ?_, ?_⟩
  · intro c k now hk hinv
    have hsub := api_check_cache_sub c now
    have hinv2 : ∀ kv ∈ (c.check_and_clear_expired_cache now).cache, kv.2 ≠ none := by
      rcases hsub with h | h <;> rw [h]
      · exact hinv
      · simp
    have hhas : (c.has k now).1
        = (lookupKV (c.check_and_clear_expired_cache now).cache k).isSome := by
      simp [ApiNews.NewsCache.has, hk]
    have hget : (c.get k now).1
        = (lookupKV (c.check_and_clear_expired_cache now).cache k).join := by
      simp [ApiNews.NewsCache.get, hk]
    rw [hhas, hget]
    constructor
    · intro hs
      rcases hlk : lookupKV (c.check_and_clear_expired_cache now).cache k with _ | v0
      · rw [hlk] at hs
        simp at hs
      · have hmem := lookupKV_mem _ _ _ hlk
        have hv0 := hinv2 _ hmem
        rcases v0 with _ | n
        · simp at hv0
        · exact ⟨n, rfl⟩
    · intro hv
      obtain ⟨v, hv⟩ := hv
      rcases hlk : lookupKV (c.check_and_clear_expired_cache now).cache k with _ | v0
      · rw [hlk] at hv
        simp at hv
      · rfl
  · intro c k now
    by_cases hk : k = "random" <;>
      simp [ApiNews.NewsCache.has, ApiNews.NewsCache.get, hk]
  · intro c k today hk hinv
    have hsub := day_check_cache_sub c today
    have hinv2 : ∀ kv ∈ (c.check_and_clear_old_cache today).cache, kv.2 ≠ none := by
      rcases hsub with h | h <;> rw [h]
      · exact hinv
      · simp
    have hhas : (c.has k today).1
        = (lookupKV (c.check_and_clear_old_cache today).cache k).isSome := by
      simp [DayNews.NewsCache.has, hk]
    have hget : (c.get k today).1
        = (lookupKV (c.check_and_clear_old_cache today).cache k).join := by
      simp [DayNews.NewsCache.get, hk]
    rw [hhas, hget]
    constructor
    · intro hs
      rcases hlk : lookupKV (c.check_and_clear_old_cache today).cache k with _ | v0
      · rw [hlk] at hs
        simp at hs
      · have hmem := lookupKV_mem _ _ _ hlk
        have hv0 := hinv2 _ hmem
        rcases v0 with _ | n
        · simp at hv0
        · exact ⟨n, rfl⟩
    · intro hv
      obtain ⟨v, hv⟩ := hv
      rcases hlk : lookupKV (c.check_and_clear_old_cache today).cache k with _ | v0
      · rw [hlk] at hv
        simp at hv
      · rfl
  · intro c k today
    by_cases hk : k = "random" <;>
      simp [DayNews.NewsCache.has, DayNews.NewsCache.get, hk]

/-- C10 witness: a fresh one-entry TTL cache where `has` is true and
`get` returns the stored value. -/
theorem claim_C10_witness :
    ("one_week" : String) ≠ "random" ∧
      (∀ kv ∈ ([("one_week", some 5)] : List (String × CacheVal)), kv.2 ≠ none) ∧
      (((ApiNews.NewsCache.has ⟨[("one_week", some 5)], some 100⟩
            ("one_week") 200).1 = true) ↔
        ∃ v, (ApiNews.NewsCache.get ⟨[("one_week", some 5)], some 100⟩
            ("one_week") 200).1 = some v) :=
  ⟨by decide, by decide,
    claim_C10.1 ⟨[("one_week", some 5)], some 100⟩ ("one_week") 200
      (by decide) (by decide)⟩
